import Mathlib

/-!
A shallow embedding of `pykg2vec/core/TransD.py` (the TransD knowledge-graph
embedding model) and proofs about it.

Modelling conventions:
* A tensor of shape `[b, d]` is a `List (List ℝ)` (a batch of row vectors);
  a tensor of shape `[b]` is a `List ℝ`; id batches are `List ℕ`.
* Floating-point arithmetic is idealised as real arithmetic; `tf.nn.l2_normalize`
  is `x / sqrt (sum x²)` (with division by zero yielding zero, matching the
  epsilon-guarded TensorFlow kernel in the limit).
* The reduction axis is always the last axis (the embedding dimension), which is
  the only axis the model ever passes (`axis=-1`, the default).
* The model's four parameter tables and the two config fields (`L1_flag`,
  `margin`) that the methods read are gathered in a `TransD` structure; random
  initialisation (`def_parameters`) is treated as an arbitrary table state.
-/

namespace TransDModel

/-- The slice of the external config object read by the TransD methods:
`L1_flag` selects L1 vs L2 dissimilarity, `margin` is the pairwise-loss margin. -/
structure Config where
  L1_flag : Bool
  margin : ℝ

/-- The TransD model state: the four parameter tables created by
`def_parameters` (TransD.py lines 71-74), plus the config slice. -/
structure TransD where
  config : Config
  ent_embeddings : List (List ℝ)
  rel_embeddings : List (List ℝ)
  ent_mappings : List (List ℝ)
  rel_mappings : List (List ℝ)

/-- `tf.nn.embedding_lookup table ids`: select the rows of `table` named by
`ids` (out-of-range ids give the default `[]`; the spec leaves them undefined). -/
def lookup (table : List (List ℝ)) (ids : List ℕ) : List (List ℝ) :=
  ids.map fun i => table.getD i []

/-- Three-list pointwise zip, the batch dimension of elementwise tensor ops. -/
def zipWith3 (f : α → β → γ → δ) : List α → List β → List γ → List δ
  | a :: as, b :: bs, c :: cs => f a b c :: zipWith3 f as bs cs
  | _, _, _ => []

/-- `projection` (TransD.py line 155), one example at a time:
`emb_e + tf.reduce_sum(emb_e * emb_m, -1, keepdims=True) * proj_vec`,
under the shape-compatible reading (`d = k`) in which the final addition is
elementwise. -/
def projection (emb_e emb_m proj_vec : List ℝ) : List ℝ :=
  List.zipWith (fun a b => a + b) emb_e
    (proj_vec.map fun x => (List.zipWith (fun a b => a * b) emb_e emb_m).sum * x)

/-- `embed` (TransD.py lines 78-100): look up raw embeddings and mapping
vectors for `h`, `r`, `t`, project head and tail through `projection`, and
return (projected head, raw relation embedding, projected tail). -/
def embed (M : TransD) (h r t : List ℕ) :
    List (List ℝ) × List (List ℝ) × List (List ℝ) :=
  (zipWith3 projection (lookup M.ent_embeddings h) (lookup M.ent_mappings h)
      (lookup M.rel_mappings r),
   lookup M.rel_embeddings r,
   zipWith3 projection (lookup M.ent_embeddings t) (lookup M.ent_mappings t)
      (lookup M.rel_mappings r))

/-- `tf.nn.l2_normalize x (axis := last)` on one row: divide each entry by the
L2 norm of the row. -/
noncomputable def l2_normalize (x : List ℝ) : List ℝ :=
  x.map fun v => v / Real.sqrt ((x.map fun u => u * u).sum)

/-- The elementwise branch of `dissimilarity` (TransD.py lines 120-123):
`tf.math.abs` under the L1 flag, `tf.math.square` otherwise. -/
noncomputable def absOrSquare (L1 : Bool) (x : ℝ) : ℝ :=
  if L1 then |x| else x * x

/-- `dissimilarity` (TransD.py lines 102-125) on one example: L2-normalize the
three rows, form `norm_h + norm_r - norm_t`, apply abs or square elementwise,
and sum over the reduction axis. -/
noncomputable def dissimilarity (L1 : Bool) (h r t : List ℝ) : ℝ :=
  ((List.zipWith (fun a b => a - b)
      (List.zipWith (fun a b => a + b) (l2_normalize h) (l2_normalize r))
      (l2_normalize t)).map (absOrSquare L1)).sum

/-- `dissimilarity` on a whole `[b, k]` batch with `axis = -1`: one scalar per
example. -/
noncomputable def dissimilarityBatch (L1 : Bool) (h r t : List (List ℝ)) :
    List ℝ :=
  zipWith3 (dissimilarity L1) h r t

/-- The embed-then-score pipeline shared by `get_loss` (lines 129-133) and
`predict_rank` (lines 147-148): `score = dissimilarity(embed(h, r, t))`. -/
noncomputable def score_of (M : TransD) (h r t : List ℕ) : List ℝ :=
  dissimilarityBatch M.config.L1_flag (embed M h r t).1 (embed M h r t).2.1
    (embed M h r t).2.2

/-- `tf.reduce_mean` of a rank-1 tensor. -/
noncomputable def mean (xs : List ℝ) : ℝ :=
  xs.sum / xs.length

/-- Modelled from the spec: `pairwise_margin_loss` is defined on `ModelMeta`
(`pykg2vec/core/KGMeta.py`), which is not part of this source tree; spec
section 4.4 defines it as `mean(max(0, margin + positive_score −
negative_score))` over the batch. -/
noncomputable def pairwise_margin_loss (margin : ℝ) (pos neg : List ℝ) : ℝ :=
  mean (List.zipWith (fun p n => max 0 (margin + p - n)) pos neg)

/-- `get_loss` (TransD.py lines 127-137): score the positive and the negative
batch through `embed` + `dissimilarity`, then apply the pairwise margin loss. -/
noncomputable def get_loss (M : TransD)
    (pos_h pos_r pos_t neg_h neg_r neg_t : List ℕ) : ℝ :=
  pairwise_margin_loss M.config.margin (score_of M pos_h pos_r pos_t)
    (score_of M neg_h neg_r neg_t)

/-- Insert index `i` into an index list already sorted by descending score,
keeping earlier (lower) indices first on ties — the tie behaviour of
`tf.nn.top_k`. -/
noncomputable def insertDesc (score : List ℝ) (i : ℕ) : List ℕ → List ℕ
  | [] => [i]
  | j :: rest =>
      if score.getD j 0 < score.getD i 0 then i :: j :: rest
      else j :: insertDesc score i rest

/-- All indices of `score` sorted by descending value (stable). -/
noncomputable def argsortDesc (score : List ℝ) : List ℕ :=
  (List.range score.length).foldl (fun acc i => insertDesc score i acc) []

/-- `tf.nn.top_k score k` (index output): the indices of the `k` LARGEST
entries, in descending value order. The kernel requires `0 ≤ k ≤ n` and raises
`InvalidArgumentError` otherwise, modelled as `none`. -/
noncomputable def topK (score : List ℝ) (k : ℤ) : Option (List ℕ) :=
  if k < 0 ∨ (score.length : ℤ) < k then none
  else some ((argsortDesc score).take k.toNat)

/-- `predict_rank` (TransD.py lines 139-151): score every candidate through
`embed` + `dissimilarity`, then `_, rank = tf.nn.top_k(score, k=topk)`. -/
noncomputable def predict_rank (M : TransD) (h r t : List ℕ) (topk : ℤ) :
    Option (List ℕ) :=
  topK (score_of M h r t) topk

/-- NumPy/TensorFlow broadcasting of a binary elementwise op over the last
axis: equal lengths zip; a length-1 operand is stretched; anything else is a
shape error (`none`). -/
def broadcastBin (f : ℝ → ℝ → ℝ) (xs ys : List ℝ) : Option (List ℝ) :=
  if xs.length = ys.length then some (List.zipWith f xs ys)
  else if xs.length = 1 then some (ys.map (f (xs.headD 0)))
  else if ys.length = 1 then some (xs.map fun x => f x (ys.headD 0))
  else none

/-- `projection` under TensorFlow's actual shape semantics: `emb_e * emb_m`
must broadcast, then the keepdims scalar times `proj_vec` is a `map`, and the
final `emb_e + …` must broadcast a length-`d` row against a length-`k` row. -/
def projectionTF (emb_e emb_m proj_vec : List ℝ) : Option (List ℝ) :=
  (broadcastBin (fun a b => a * b) emb_e emb_m).bind fun prods =>
    broadcastBin (fun a b => a + b) emb_e (proj_vec.map fun x => prods.sum * x)

/-- One call of `embed` in state-passing form: the returned model state is the
state after the call. `embed` only reads the tables, so the state is returned
unchanged. -/
def embedCall (M : TransD) (h r t : List ℕ) :
    (List (List ℝ) × List (List ℝ) × List (List ℝ)) × TransD :=
  (embed M h r t, M)

/-- The shape contract established by `def_parameters` (TransD.py lines 64-74):
entity tables are `nE × d`, relation tables are `nR × k`. -/
structure Shaped (M : TransD) (nE nR d k : ℕ) : Prop where
  entEmbRows : M.ent_embeddings.length = nE
  relEmbRows : M.rel_embeddings.length = nR
  entMapRows : M.ent_mappings.length = nE
  relMapRows : M.rel_mappings.length = nR
  entEmbCols : ∀ v ∈ M.ent_embeddings, v.length = d
  relEmbCols : ∀ v ∈ M.rel_embeddings, v.length = k
  entMapCols : ∀ v ∈ M.ent_mappings, v.length = d
  relMapCols : ∀ v ∈ M.rel_mappings, v.length = k

/-- Spec-side dot product: `sum(raw_entity_vec * entity_proj_vec)`, a scalar
per example. -/
def dot (x y : List ℝ) : ℝ :=
  (List.zipWith (fun a b => a * b) x y).sum

/-- Spec-side L2 normalisation of a length-`m` vector, written over index
functions: each coordinate divided by the root of the sum of squares. -/
noncomputable def specNormalize (m : ℕ) (v : Fin m → ℝ) : Fin m → ℝ :=
  fun i => v i / Real.sqrt (∑ j, v j * v j)

/-- Spec-side dissimilarity (spec section 4.3), written over index functions:
L2-normalize each vector, form `nh + nr − nt`, apply absolute value (L1) or
elementwise square, and sum along the axis. -/
noncomputable def specScore (L1 : Bool) (m : ℕ) (h r t : Fin m → ℝ) : ℝ :=
  ∑ i, (if L1
    then |specNormalize m h i + specNormalize m r i - specNormalize m t i|
    else (specNormalize m h i + specNormalize m r i - specNormalize m t i) ^ 2)

/-- Spec section 4.2, written from the spec's words: `embed` returns the raw
relation rows, and each projected entity row satisfies, coordinate by
coordinate, `projected = raw_entity_vec + sum(raw_entity_vec * entity_proj_vec)
* relation_proj_vec`, with every row selected from its table by the given id. -/
def EmbedProjectsSpec (M : TransD) (d n : ℕ) (h r t : List ℕ) : Prop :=
  (embed M h r t).2.1 = r.map (fun i => M.rel_embeddings.getD i []) ∧
  (∀ j, j < n → ∀ i, i < d →
    ((embed M h r t).1.getD j []).getD i 0 =
      (M.ent_embeddings.getD (h.getD j 0) []).getD i 0 +
        dot (M.ent_embeddings.getD (h.getD j 0) [])
            (M.ent_mappings.getD (h.getD j 0) []) *
          (M.rel_mappings.getD (r.getD j 0) []).getD i 0) ∧
  (∀ j, j < n → ∀ i, i < d →
    ((embed M h r t).2.2.getD j []).getD i 0 =
      (M.ent_embeddings.getD (t.getD j 0) []).getD i 0 +
        dot (M.ent_embeddings.getD (t.getD j 0) [])
            (M.ent_mappings.getD (t.getD j 0) []) *
          (M.rel_mappings.getD (r.getD j 0) []).getD i 0)

/-- Spec section 8, shapes: all three tensors returned by `embed` have shape
(batch size `n`, relation dimension `k`). -/
def EmbedShapesSpec (M : TransD) (k n : ℕ) (h r t : List ℕ) : Prop :=
  (embed M h r t).1.length = n ∧ (embed M h r t).2.1.length = n ∧
  (embed M h r t).2.2.length = n ∧
  (∀ v ∈ (embed M h r t).1, v.length = k) ∧
  (∀ v ∈ (embed M h r t).2.1, v.length = k) ∧
  (∀ v ∈ (embed M h r t).2.2, v.length = k)

/-- Spec section 4.3 for a `[n, d]` batch: `dissimilarity` yields exactly one
scalar per example, and that scalar is the spec's normalize/translate/reduce
formula evaluated on the example's three rows. -/
def DissimScoresSpec (L1 : Bool) (d n : ℕ) (H R T : List (List ℝ)) : Prop :=
  (dissimilarityBatch L1 H R T).length = n ∧
  ∀ j, j < n → (dissimilarityBatch L1 H R T).getD j 0 =
    specScore L1 d (fun i => (H.getD j []).getD i.1 0)
      (fun i => (R.getD j []).getD i.1 0) (fun i => (T.getD j []).getD i.1 0)

/-- Spec sections 4.4 and 8 for `get_loss` on matched batches of size `n`:
the loss is `mean(max(0, margin + positive_score − negative_score))`, it is
zero exactly when every example keeps the margin, and it is strictly positive
as soon as one example violates it. -/
def GetLossSpec (M : TransD) (n : ℕ) (ph pr pt nh nr nt : List ℕ) : Prop :=
  get_loss M ph pr pt nh nr nt =
    mean (List.zipWith (fun p q => max 0 (M.config.margin + p - q))
      (score_of M ph pr pt) (score_of M nh nr nt)) ∧
  (get_loss M ph pr pt nh nr nt = 0 ↔
    ∀ j, j < n → M.config.margin ≤
      (score_of M nh nr nt).getD j 0 - (score_of M ph pr pt).getD j 0) ∧
  ((∃ j, j < n ∧ (score_of M nh nr nt).getD j 0 -
      (score_of M ph pr pt).getD j 0 < M.config.margin) →
    0 < get_loss M ph pr pt nh nr nt)

/-- Spec section 8, scale invariance: scaling any one of the three input
batches of `dissimilarity` by a constant does not change the scores. -/
def ScaleInvSpec (L1 : Bool) (c : ℝ) (H R T : List (List ℝ)) : Prop :=
  dissimilarityBatch L1 (H.map (List.map fun v => c * v)) R T =
    dissimilarityBatch L1 H R T ∧
  dissimilarityBatch L1 H (R.map (List.map fun v => c * v)) T =
    dissimilarityBatch L1 H R T ∧
  dissimilarityBatch L1 H R (T.map (List.map fun v => c * v)) =
    dissimilarityBatch L1 H R T

/-- A tiny concrete model state used to exercise the definitions: two entities
with embeddings `[1,0]` and `[0,1]`, one relation with embedding `[0,1]`, all
mapping vectors zero (so projection is the identity), L2 scoring, margin 0. -/
def Mex : TransD :=
  ⟨⟨false, 0⟩, [[1, 0], [0, 1]], [[0, 1]], [[0, 0], [0, 0]], [[0, 0]]⟩

/-! ### Structural lemmas about the batch combinators -/

theorem zipWith3_length (f : α → β → γ → δ) :
    ∀ (as : List α) (bs : List β) (cs : List γ),
      (zipWith3 f as bs cs).length = min as.length (min bs.length cs.length) := by
  intro as
  induction as with
  | nil => intro bs cs; simp [zipWith3]
  | cons a as ih =>
    intro bs cs
    cases bs with
    | nil => simp [zipWith3]
    | cons b bs =>
      cases cs with
      | nil => simp [zipWith3]
      | cons c cs => simp [zipWith3, ih bs cs, Nat.succ_min_succ]

theorem zipWith3_getD (f : α → β → γ → δ) (da : α) (db : β) (dc : γ) (dd : δ) :
    ∀ (as : List α) (bs : List β) (cs : List γ) (i : ℕ),
      i < as.length → i < bs.length → i < cs.length →
      (zipWith3 f as bs cs).getD i dd = f (as.getD i da) (bs.getD i db) (cs.getD i dc) := by
  intro as
  induction as with
  | nil => intro bs cs i ha; simp at ha
  | cons a as ih =>
    intro bs cs i ha hb hc
    cases bs with
    | nil => simp at hb
    | cons b bs =>
      cases cs with
      | nil => simp at hc
      | cons c cs =>
        cases i with
        | zero => rfl
        | succ i =>
          simp only [zipWith3, List.getD_cons_succ]
          exact ih bs cs i (by simpa using ha) (by simpa using hb) (by simpa using hc)

theorem mem_zipWith3 (f : α → β → γ → δ) {x : δ} :
    ∀ {as : List α} {bs : List β} {cs : List γ}, x ∈ zipWith3 f as bs cs →
      ∃ a ∈ as, ∃ b ∈ bs, ∃ c ∈ cs, x = f a b c := by
  intro as
  induction as with
  | nil => intro bs cs hx; simp [zipWith3] at hx
  | cons a as ih =>
    intro bs cs hx
    cases bs with
    | nil => simp [zipWith3] at hx
    | cons b bs =>
      cases cs with
      | nil => simp [zipWith3] at hx
      | cons c cs =>
        rcases List.mem_cons.mp hx with h | h
        · exact ⟨a, List.mem_cons_self a as, b, List.mem_cons_self b bs, c,
            List.mem_cons_self c cs, h⟩
        · obtain ⟨a', ha', b', hb', c', hc', hx'⟩ := ih h
          exact ⟨a', List.mem_cons_of_mem _ ha', b', List.mem_cons_of_mem _ hb',
            c', List.mem_cons_of_mem _ hc', hx'⟩

theorem zipWith3_map_left (f : α → β → γ → δ) (g : α' → α) :
    ∀ (as : List α') (bs : List β) (cs : List γ),
      zipWith3 f (as.map g) bs cs = zipWith3 (fun a b c => f (g a) b c) as bs cs := by
  intro as
  induction as with
  | nil => intro bs cs; simp [zipWith3]
  | cons a as ih =>
    intro bs cs
    cases bs with
    | nil => simp [zipWith3]
    | cons b bs =>
      cases cs with
      | nil => simp [zipWith3]
      | cons c cs => simp [zipWith3, ih bs cs]

theorem zipWith3_map_mid (f : α → β → γ → δ) (g : β' → β) :
    ∀ (as : List α) (bs : List β') (cs : List γ),
      zipWith3 f as (bs.map g) cs = zipWith3 (fun a b c => f a (g b) c) as bs cs := by
  intro as
  induction as with
  | nil => intro bs cs; simp [zipWith3]
  | cons a as ih =>
    intro bs cs
    cases bs with
    | nil => simp [zipWith3]
    | cons b bs =>
      cases cs with
      | nil => simp [zipWith3]
      | cons c cs => simp [zipWith3, ih bs cs]

theorem zipWith3_map_right (f : α → β → γ → δ) (g : γ' → γ) :
    ∀ (as : List α) (bs : List β) (cs : List γ'),
      zipWith3 f as bs (cs.map g) = zipWith3 (fun a b c => f a b (g c)) as bs cs := by
  intro as
  induction as with
  | nil => intro bs cs; simp [zipWith3]
  | cons a as ih =>
    intro bs cs
    cases bs with
    | nil => simp [zipWith3]
    | cons b bs =>
      cases cs with
      | nil => simp [zipWith3]
      | cons c cs => simp [zipWith3, ih bs cs]

theorem lookup_length (table : List (List ℝ)) (ids : List ℕ) :
    (lookup table ids).length = ids.length := by
  simp [lookup]

theorem lookup_getD (table : List (List ℝ)) (ids : List ℕ) (j : ℕ)
    (hj : j < ids.length) :
    (lookup table ids).getD j [] = table.getD (ids.getD j 0) [] := by
  rw [List.getD_eq_getElem _ _ (by simpa [lookup] using hj),
    List.getD_eq_getElem _ _ hj]
  simp [lookup]

theorem mem_lookup (table : List (List ℝ)) (ids : List ℕ) {v : List ℝ}
    (hv : v ∈ lookup table ids) : ∃ i ∈ ids, v = table.getD i [] := by
  obtain ⟨i, hi, rfl⟩ := List.mem_map.mp hv
  exact ⟨i, hi, rfl⟩

theorem projection_length (e m p : List ℝ) :
    (projection e m p).length = min e.length p.length := by
  simp [projection]

theorem zipWith_getD (f : ℝ → ℝ → ℝ) (a b : List ℝ) (i : ℕ)
    (ha : i < a.length) (hb : i < b.length) :
    (List.zipWith f a b).getD i 0 = f (a.getD i 0) (b.getD i 0) := by
  have hz : i < (List.zipWith f a b).length := by simp [ha, hb]
  rw [List.getD_eq_getElem _ _ hz, List.getD_eq_getElem _ _ ha,
    List.getD_eq_getElem _ _ hb]
  simp

theorem map_sum_getD (l : List ℝ) (g : ℝ → ℝ) (m : ℕ) (hl : l.length = m) :
    (l.map g).sum = ∑ i : Fin m, g (l.getD i.1 0) := by
  subst hl
  rw [← Fin.sum_univ_get' l g]
  refine Finset.sum_congr rfl fun i _ => ?_
  rw [List.getD_eq_getElem _ _ i.isLt]

/-! ### Lemmas about `l2_normalize` and `dissimilarity` -/

theorem l2_normalize_length (x : List ℝ) :
    (l2_normalize x).length = x.length := by
  simp [l2_normalize]

theorem l2_normalize_getD (x : List ℝ) (m i : ℕ) (hm : x.length = m)
    (hi : i < m) :
    (l2_normalize x).getD i 0 =
      x.getD i 0 / Real.sqrt (∑ j : Fin m, x.getD j.1 0 * x.getD j.1 0) := by
  subst hm
  have hi' : i < (l2_normalize x).length := by simpa [l2_normalize_length] using hi
  rw [List.getD_eq_getElem _ _ hi', List.getD_eq_getElem _ _ hi,
    ← map_sum_getD x (fun u => u * u) x.length rfl]
  simp [l2_normalize]

theorem l2_normalize_of_unit (x : List ℝ)
    (hx : (x.map fun u => u * u).sum = 1) : l2_normalize x = x := by
  unfold l2_normalize
  rw [hx, Real.sqrt_one]
  simp

theorem sumsq_scale (c : ℝ) (x : List ℝ) :
    ((x.map fun v => c * v).map fun u => u * u).sum =
      c ^ 2 * (x.map fun u => u * u).sum := by
  rw [List.map_map]
  have h : ((fun u => u * u) ∘ fun v => c * v) = fun u => c ^ 2 * (u * u) := by
    funext u; simp; ring
  rw [h, ← List.sum_map_mul_left]

theorem l2_normalize_scale (c : ℝ) (hc : 0 < c) (x : List ℝ) :
    l2_normalize (x.map fun v => c * v) = l2_normalize x := by
  unfold l2_normalize
  rw [sumsq_scale c x, Real.sqrt_mul (by positivity) _, Real.sqrt_sq hc.le,
    List.map_map]
  refine List.map_congr_left fun a _ => ?_
  simp only [Function.comp_apply]
  exact mul_div_mul_left a _ hc.ne'

theorem sum_eq_zero_iff_of_nonneg {l : List ℝ} (h : ∀ x ∈ l, 0 ≤ x) :
    l.sum = 0 ↔ ∀ x ∈ l, x = 0 := by
  induction l with
  | nil => simp
  | cons a l ih =>
    have ha : 0 ≤ a := h a (List.mem_cons_self a l)
    have hl : ∀ x ∈ l, 0 ≤ x := fun x hx => h x (List.mem_cons_of_mem _ hx)
    have hs : 0 ≤ l.sum := List.sum_nonneg hl
    simp only [List.sum_cons, List.mem_cons]
    constructor
    · intro h0
      have ha0 : a = 0 := le_antisymm (by linarith) ha
      have hs0 : l.sum = 0 := by linarith
      intro x hx
      rcases hx with rfl | hx
      · exact ha0
      · exact (ih hl).mp hs0 x hx
    · intro h0
      rw [h0 a (Or.inl rfl), (ih hl).mpr fun x hx => h0 x (Or.inr hx), add_zero]

theorem absOrSquare_nonneg (L1 : Bool) (x : ℝ) : 0 ≤ absOrSquare L1 x := by
  unfold absOrSquare
  split
  · exact abs_nonneg x
  · exact mul_self_nonneg x

theorem dissimilarity_nonneg_one (L1 : Bool) (h r t : List ℝ) :
    0 ≤ dissimilarity L1 h r t := by
  unfold dissimilarity
  refine List.sum_nonneg fun x hx => ?_
  obtain ⟨v, _, rfl⟩ := List.mem_map.mp hx
  exact absOrSquare_nonneg L1 v

theorem dissimilarity_eq_specScore (L1 : Bool) (x y z : List ℝ) (d : ℕ)
    (hx : x.length = d) (hy : y.length = d) (hz : z.length = d) :
    dissimilarity L1 x y z =
      specScore L1 d (fun i => x.getD i.1 0) (fun i => y.getD i.1 0)
        (fun i => z.getD i.1 0) := by
  unfold dissimilarity specScore
  have hadd : (List.zipWith (fun a b => a + b) (l2_normalize x)
      (l2_normalize y)).length = d := by
    simp [l2_normalize_length, hx, hy]
  have hlen : (List.zipWith (fun a b => a - b)
      (List.zipWith (fun a b => a + b) (l2_normalize x) (l2_normalize y))
      (l2_normalize z)).length = d := by
    simp [hadd, l2_normalize_length, hz]
  rw [map_sum_getD _ (absOrSquare L1) d hlen]
  refine Finset.sum_congr rfl fun i _ => ?_
  rw [zipWith_getD _ _ _ i.1 (by simp [hadd]) (by simp [l2_normalize_length, hz, i.isLt]),
    zipWith_getD _ _ _ i.1 (by simp [l2_normalize_length, hx, i.isLt])
      (by simp [l2_normalize_length, hy, i.isLt]),
    l2_normalize_getD x d i.1 hx i.isLt, l2_normalize_getD y d i.1 hy i.isLt,
    l2_normalize_getD z d i.1 hz i.isLt]
  unfold absOrSquare specNormalize
  cases L1 with
  | false => simp; ring
  | true => simp

theorem score_of_length (M : TransD) (h r t : List ℕ) (n : ℕ)
    (hh : h.length = n) (hr : r.length = n) (ht : t.length = n) :
    (score_of M h r t).length = n := by
  simp [score_of, dissimilarityBatch, zipWith3_length, embed, lookup_length,
    hh, hr, ht]

/-! ### Indexing and concrete-evaluation lemmas -/

theorem getD_mem {α : Type} (d : α) (l : List α) (j : ℕ) (hj : j < l.length) :
    l.getD j d ∈ l := by
  rw [List.getD_eq_getElem _ _ hj]
  exact List.getElem_mem hj

theorem row_length (tbl : List (List ℝ)) (cnt cols i : ℕ)
    (hc : tbl.length = cnt) (hrows : ∀ v ∈ tbl, v.length = cols)
    (hi : i < cnt) : (tbl.getD i []).length = cols :=
  hrows _ (getD_mem [] tbl i (hc ▸ hi))

theorem projection_getD (e m p : List ℝ) (i : ℕ) (hie : i < e.length)
    (hip : i < p.length) :
    (projection e m p).getD i 0 = e.getD i 0 + dot e m * p.getD i 0 := by
  unfold projection
  rw [zipWith_getD _ _ _ i hie (by simpa using hip)]
  congr 1
  rw [List.getD_eq_getElem _ _ (by simpa using hip),
    List.getD_eq_getElem _ _ hip]
  simp [dot]

theorem zipWith_forall_mem {f : ℝ → ℝ → ℝ} {P : ℝ → Prop}
    (hf : ∀ p q, P (f p q)) :
    ∀ (a b : List ℝ), ∀ x ∈ List.zipWith f a b, P x := by
  intro a
  induction a with
  | nil => intro b x hx; simp at hx
  | cons p a ih =>
    intro b x hx
    cases b with
    | nil => simp at hx
    | cons q b =>
      rcases List.mem_cons.mp hx with rfl | hx
      · exact hf p q
      · exact ih b x hx

theorem Mex_shaped : Shaped Mex 2 1 2 2 := by
  refine ⟨rfl, rfl, rfl, rfl, ?_, ?_, ?_, ?_⟩ <;>
    · intro v hv
      fin_cases hv <;> rfl

theorem embed_Mex_sweep :
    embed Mex [0, 1] [0, 0] [0, 0] =
      ([[1, 0], [0, 1]], [[0, 1], [0, 1]], [[1, 0], [1, 0]]) := by
  norm_num [embed, Mex, lookup, zipWith3, projection]

theorem norm10 : l2_normalize [(1 : ℝ), 0] = [1, 0] :=
  l2_normalize_of_unit _ (by norm_num)

theorem norm01 : l2_normalize [(0 : ℝ), 1] = [0, 1] :=
  l2_normalize_of_unit _ (by norm_num)

theorem score_Mex_sweep : score_of Mex [0, 1] [0, 0] [0, 0] = [1, 5] := by
  rw [score_of, embed_Mex_sweep]
  norm_num [Mex, dissimilarityBatch, zipWith3, dissimilarity, norm10, norm01,
    absOrSquare]

theorem dissimBatch_unit_eval :
    dissimilarityBatch true [[1, 0]] [[1, 0]] [[1, 0]] = [1] := by
  norm_num [dissimilarityBatch, zipWith3, dissimilarity, norm10, absOrSquare]

theorem pairwise_margin_loss_zero_iff (margin : ℝ) (pos neg : List ℝ) (n : ℕ)
    (hpos : pos.length = n) (hneg : neg.length = n) :
    (pairwise_margin_loss margin pos neg = 0 ↔
      ∀ j, j < n → margin ≤ neg.getD j 0 - pos.getD j 0) ∧
    ((∃ j, j < n ∧ neg.getD j 0 - pos.getD j 0 < margin) →
      0 < pairwise_margin_loss margin pos neg) := by
  have hLlen : (List.zipWith (fun p q => max 0 (margin + p - q)) pos neg).length
      = n := by
    simp [hpos, hneg]
  have hLnn : ∀ x ∈ List.zipWith (fun p q => max 0 (margin + p - q)) pos neg,
      0 ≤ x :=
    zipWith_forall_mem (fun p q => le_max_left 0 (margin + p - q)) pos neg
  have hgetD : ∀ j, j < n →
      (List.zipWith (fun p q => max 0 (margin + p - q)) pos neg).getD j 0 =
        max 0 (margin + pos.getD j 0 - neg.getD j 0) :=
    fun j hj => zipWith_getD _ _ _ j (hpos ▸ hj) (hneg ▸ hj)
  constructor
  · unfold pairwise_margin_loss mean
    rcases Nat.eq_zero_or_pos n with hn | hn
    · subst hn
      have hposnil : pos = [] := List.eq_nil_of_length_eq_zero hpos
      simp [hposnil]
    · have hne : ((List.zipWith (fun p q => max 0 (margin + p - q))
          pos neg).length : ℝ) ≠ 0 := by
        rw [hLlen]
        exact_mod_cast hn.ne'
      rw [div_eq_zero_iff]
      constructor
      · rintro (hs | habs)
        · intro j hj
          have hx := (sum_eq_zero_iff_of_nonneg hLnn).mp hs _
            (getD_mem 0 _ j (hLlen ▸ hj))
          rw [hgetD j hj] at hx
          have harg : margin + pos.getD j 0 - neg.getD j 0 ≤ 0 := by
            calc margin + pos.getD j 0 - neg.getD j 0
                ≤ max 0 (margin + pos.getD j 0 - neg.getD j 0) := le_max_right _ _
              _ = 0 := hx
          linarith
        · exact absurd habs hne
      · intro hall
        left
        refine (sum_eq_zero_iff_of_nonneg hLnn).mpr fun x hx => ?_
        obtain ⟨i, hilen, hxi⟩ := List.mem_iff_getElem.mp hx
        have hi_n : i < n := hLlen ▸ hilen
        have hx' : x = max 0 (margin + pos.getD i 0 - neg.getD i 0) := by
          rw [← hgetD i hi_n, List.getD_eq_getElem _ _ hilen, hxi]
        rw [hx']
        refine max_eq_left ?_
        have := hall i hi_n
        linarith
  · rintro ⟨j, hj, hjv⟩
    unfold pairwise_margin_loss mean
    apply div_pos
    · have htermpos :
          0 < (List.zipWith (fun p q => max 0 (margin + p - q))
            pos neg).getD j 0 := by
        rw [hgetD j hj]
        exact lt_max_iff.mpr (Or.inr (by linarith))
      have hsnn : 0 ≤ (List.zipWith (fun p q => max 0 (margin + p - q))
          pos neg).sum := List.sum_nonneg hLnn
      rcases eq_or_lt_of_le hsnn with heq | hlt
      · exfalso
        have hzero := (sum_eq_zero_iff_of_nonneg hLnn).mp heq.symm _
          (getD_mem 0 _ j (hLlen ▸ hj))
        rw [hzero] at htermpos
        exact lt_irrefl 0 htermpos
      · exact hlt
    · rw [hLlen]
      exact_mod_cast lt_of_le_of_lt (Nat.zero_le j) hj

/-! ### Claim theorems -/

/-- Claim C10: for every fixed state of the four parameter tables and every
fixed input id batch, two successive calls to `embed` return identical
outputs, and the second call runs on an unchanged table state: `embed` is a
deterministic function of its inputs and the tables, with no hidden internal
state mutated between calls. -/
theorem embed_deterministic (M : TransD) (h r t : List ℕ) :
    (embedCall (embedCall M h r t).2 h r t).1 = (embedCall M h r t).1 ∧
    (embedCall (embedCall M h r t).2 h r t).2 = M :=
  ⟨rfl, rfl⟩

/-- Claim C7: every per-example score returned by `dissimilarity` is
non-negative, both under the L1 flag (absolute value) and without it
(elementwise square). -/
theorem dissimilarity_scores_nonneg (L1 : Bool) (H R T : List (List ℝ))
    (s : ℝ) (hs : s ∈ dissimilarityBatch L1 H R T) : 0 ≤ s := by
  simp only [dissimilarityBatch] at hs
  obtain ⟨a, _, b, _, c, _, rfl⟩ := mem_zipWith3 _ hs
  exact dissimilarity_nonneg_one L1 a b c

/-- Witness for C7: the concrete batch `h = r = t = [[1,0]]` under the L1 flag
produces the score list `[1]`, whose member `1` is non-negative. -/
theorem dissimilarity_scores_nonneg_witness :
    (1 : ℝ) ∈ dissimilarityBatch true [[1, 0]] [[1, 0]] [[1, 0]] ∧
    (0 : ℝ) ≤ 1 :=
  ⟨by rw [dissimBatch_unit_eval]; exact List.mem_singleton.mpr rfl,
   dissimilarity_scores_nonneg true [[1, 0]] [[1, 0]] [[1, 0]] 1
     (by rw [dissimBatch_unit_eval]; exact List.mem_singleton.mpr rfl)⟩

/-- Claim C5 is false of the code: `predict_rank` hands `topk = -1` straight
to `tf.nn.top_k`, whose kernel rejects any negative `k`
(`InvalidArgumentError`, modelled as `none`), so the `-1` sentinel — the
declared default of `predict_rank` — errors instead of returning the full
ranking. -/
theorem predict_rank_neg_one_errors :
    predict_rank Mex [0] [0] [0] (-1) = none := by
  norm_num [predict_rank, topK]

/-- Claim C3 is false of the code: on the head sweep `h = [0,1]` over `Mex`
the candidate scores are `[1, 5]`, yet `predict_rank` with `topk = 2` (the
full candidate count) returns `[1, 0]` — `tf.nn.top_k` selects the LARGEST
scores first, so the first returned index carries the maximum score 5, not
the minimum 1 demanded by ascending-plausibility ranking. -/
theorem predict_rank_descending_at_Mex :
    score_of Mex [0, 1] [0, 0] [0, 0] = [1, 5] ∧
    predict_rank Mex [0, 1] [0, 0] [0, 0] 2 = some [1, 0] := by
  refine ⟨score_Mex_sweep, ?_⟩
  rw [predict_rank, score_Mex_sweep]
  norm_num [topK, argsortDesc, insertDesc, List.range_succ]

/-- Counterexample to claim C8: with entity dimension `d = 1` and relation
dimension `k = 2` the first projection call does NOT fail — TensorFlow
broadcasting stretches the length-1 entity row against the length-2 relation
projection row and silently returns a length-2 result (and `def_parameters`
performs no dimension check at construction at all). -/
theorem projection_silently_broadcasts_dim_one :
    projectionTF [(1 : ℝ)] [1] [1, 1] = some [2, 2] := by
  norm_num [projectionTF, broadcastBin]

/-- Claim C8 amended: when `d` and `k` differ AND both are at least 2, the
final addition of `projection` is a genuine shape mismatch, so the first call
involving the projection fails fast with a dimension-mismatch error; but when
`d = 1` or `k = 1` the operands broadcast silently, and `def_parameters`
itself never checks the dimensions. -/
theorem projection_fails_fast_of_dims_ge_two (e m p : List ℝ)
    (hm : m.length = e.length) (hd : 2 ≤ e.length) (hk : 2 ≤ p.length)
    (hne : e.length ≠ p.length) : projectionTF e m p = none := by
  have h1 : broadcastBin (fun a b => a * b) e m =
      some (List.zipWith (fun a b => a * b) e m) := by
    unfold broadcastBin
    rw [if_pos hm.symm]
  unfold projectionTF
  rw [h1]
  rw [Option.some_bind]
  unfold broadcastBin
  have c1 : ¬ e.length =
      (p.map fun x => (List.zipWith (fun a b => a * b) e m).sum * x).length := by
    simpa using hne
  have c2 : ¬ e.length = 1 := by omega
  have c3 : ¬ (p.map fun x =>
      (List.zipWith (fun a b => a * b) e m).sum * x).length = 1 := by
    simp only [List.length_map]
    omega
  rw [if_neg c1, if_neg c2, if_neg c3]

/-- Witness for the amended C8: `d = 2`, `k = 3` fails fast at the first
projection call. -/
theorem projection_fails_fast_witness :
    ([(1 : ℝ), 1] : List ℝ).length = ([(1 : ℝ), 1] : List ℝ).length ∧
    2 ≤ ([(1 : ℝ), 1] : List ℝ).length ∧
    2 ≤ ([(1 : ℝ), 1, 1] : List ℝ).length ∧
    ([(1 : ℝ), 1] : List ℝ).length ≠ ([(1 : ℝ), 1, 1] : List ℝ).length ∧
    projectionTF [1, 1] [1, 1] [1, 1, 1] = none :=
  ⟨rfl, by norm_num, by norm_num, by norm_num,
   projection_fails_fast_of_dims_ge_two [1, 1] [1, 1] [1, 1, 1] rfl
     (by norm_num) (by norm_num) (by norm_num)⟩

/-- Claim C6: because each input row is L2-normalized before scoring, scaling
any one of the three input batches of `dissimilarity` by a positive constant
`c` leaves every score unchanged (exactly, in the idealised real model). -/
theorem dissimilarity_scale_invariant (L1 : Bool) (H R T : List (List ℝ))
    (c : ℝ) (hc : 0 < c) : ScaleInvSpec L1 c H R T := by
  have hL : ∀ x y z : List ℝ,
      dissimilarity L1 (x.map fun v => c * v) y z = dissimilarity L1 x y z :=
    fun x y z => by unfold dissimilarity; rw [l2_normalize_scale c hc]
  have hM : ∀ x y z : List ℝ,
      dissimilarity L1 x (y.map fun v => c * v) z = dissimilarity L1 x y z :=
    fun x y z => by unfold dissimilarity; rw [l2_normalize_scale c hc]
  have hR : ∀ x y z : List ℝ,
      dissimilarity L1 x y (z.map fun v => c * v) = dissimilarity L1 x y z :=
    fun x y z => by unfold dissimilarity; rw [l2_normalize_scale c hc]
  unfold ScaleInvSpec dissimilarityBatch
  refine ⟨?_, ?_, ?_⟩
  · rw [zipWith3_map_left]
    have : (fun a b c' => dissimilarity L1 (List.map (fun v => c * v) a) b c') =
        dissimilarity L1 := by
      funext a b c'
      exact hL a b c'
    rw [this]
  · rw [zipWith3_map_mid]
    have : (fun a b c' => dissimilarity L1 a (List.map (fun v => c * v) b) c') =
        dissimilarity L1 := by
      funext a b c'
      exact hM a b c'
    rw [this]
  · rw [zipWith3_map_right]
    have : (fun a b c' => dissimilarity L1 a b (List.map (fun v => c * v) c')) =
        dissimilarity L1 := by
      funext a b c'
      exact hR a b c'
    rw [this]

/-- Witness for C6: scaling by `c = 2` on the concrete batch
`[[3,4]], [[1,0]], [[0,1]]`. -/
theorem dissimilarity_scale_invariant_witness :
    (0 : ℝ) < 2 ∧ ScaleInvSpec false 2 [[3, 4]] [[1, 0]] [[0, 1]] :=
  ⟨by norm_num,
   dissimilarity_scale_invariant false [[3, 4]] [[1, 0]] [[0, 1]] 2 (by norm_num)⟩

/-- Claim C2: for equal-shaped `[n, d]` batches, `dissimilarity` returns
exactly one scalar per example, and each scalar is the spec's formula:
L2-normalize each row, form `nh + nr − nt`, apply abs (L1 flag) or elementwise
square, and sum along the reduction axis. -/
theorem dissimilarity_matches_spec (L1 : Bool) (H R T : List (List ℝ))
    (d n : ℕ) (hH : H.length = n) (hR : R.length = n) (hT : T.length = n)
    (hHd : ∀ v ∈ H, v.length = d) (hRd : ∀ v ∈ R, v.length = d)
    (hTd : ∀ v ∈ T, v.length = d) : DissimScoresSpec L1 d n H R T := by
  unfold DissimScoresSpec
  constructor
  · simp [dissimilarityBatch, zipWith3_length, hH, hR, hT]
  · intro j hj
    unfold dissimilarityBatch
    rw [zipWith3_getD (dissimilarity L1) [] [] [] 0 H R T j (hH ▸ hj)
      (hR ▸ hj) (hT ▸ hj)]
    exact dissimilarity_eq_specScore L1 _ _ _ d
      (hHd _ (getD_mem [] H j (hH ▸ hj))) (hRd _ (getD_mem [] R j (hR ▸ hj)))
      (hTd _ (getD_mem [] T j (hT ▸ hj)))

/-- Witness for C2: a single-example batch of length-2 rows under the L1
flag. -/
theorem dissimilarity_matches_spec_witness :
    DissimScoresSpec true 2 1 [[1, 0]] [[0, 1]] [[1, 0]] :=
  dissimilarity_matches_spec true [[1, 0]] [[0, 1]] [[1, 0]] 2 1 rfl rfl rfl
    (by intro v hv; fin_cases hv; rfl)
    (by intro v hv; fin_cases hv; rfl)
    (by intro v hv; fin_cases hv; rfl)

/-- Claim C9: for valid id batches over a model whose entity and relation
dimensions agree (`d = k`, the only configuration in which the projection
arithmetic is well-shaped), all three tensors returned by `embed` have shape
(batch size, relation dimension `k`). -/
theorem embed_output_shapes (M : TransD) (nE nR k : ℕ) (S : Shaped M nE nR k k)
    (h r t : List ℕ) (n : ℕ) (hh : h.length = n) (hr : r.length = n)
    (ht : t.length = n) (hvh : ∀ i ∈ h, i < nE) (hvr : ∀ i ∈ r, i < nR)
    (hvt : ∀ i ∈ t, i < nE) : EmbedShapesSpec M k n h r t := by
  unfold EmbedShapesSpec
  refine ⟨?_, ?_, ?_, ?_, ?_, ?_⟩
  · simp [embed, zipWith3_length, lookup_length, hh, hr]
  · simp [embed, lookup_length, hr]
  · simp [embed, zipWith3_length, lookup_length, ht, hr]
  · intro v hv
    simp only [embed] at hv
    obtain ⟨a, ha, b, hb, c, hc, rfl⟩ := mem_zipWith3 _ hv
    obtain ⟨i, hi, rfl⟩ := mem_lookup _ _ ha
    obtain ⟨i', hi', rfl⟩ := mem_lookup _ _ hc
    rw [projection_length,
      row_length _ nE k _ S.entEmbRows S.entEmbCols (hvh i hi),
      row_length _ nR k _ S.relMapRows S.relMapCols (hvr i' hi')]
    exact min_self k
  · intro v hv
    simp only [embed] at hv
    obtain ⟨i, hi, rfl⟩ := mem_lookup _ _ hv
    exact row_length _ nR k _ S.relEmbRows S.relEmbCols (hvr i hi)
  · intro v hv
    simp only [embed] at hv
    obtain ⟨a, ha, b, hb, c, hc, rfl⟩ := mem_zipWith3 _ hv
    obtain ⟨i, hi, rfl⟩ := mem_lookup _ _ ha
    obtain ⟨i', hi', rfl⟩ := mem_lookup _ _ hc
    rw [projection_length,
      row_length _ nE k _ S.entEmbRows S.entEmbCols (hvt i hi),
      row_length _ nR k _ S.relMapRows S.relMapCols (hvr i' hi')]
    exact min_self k

/-- Witness for C9: `Mex` with `nE = 2`, `nR = 1`, `k = 2` and the valid
batch `h = [0]`, `r = [0]`, `t = [1]`. -/
theorem embed_output_shapes_witness : EmbedShapesSpec Mex 2 1 [0] [0] [1] :=
  embed_output_shapes Mex 2 1 2 Mex_shaped [0] [0] [1] 1 rfl rfl rfl
    (by decide) (by decide) (by decide)

/-- Claim C1: for valid id batches (over a well-shaped model with `d = k`),
`embed` returns the raw relation rows untouched, and each projected entity
coordinate equals `raw_entity_vec + (raw_entity_vec · entity_proj_vec) *
relation_proj_vec`, with the raw and projection vectors selected from the
tables by the given ids. -/
theorem embed_matches_projection_spec (M : TransD) (nE nR d : ℕ)
    (S : Shaped M nE nR d d) (h r t : List ℕ) (n : ℕ)
    (hh : h.length = n) (hr : r.length = n) (ht : t.length = n)
    (hvh : ∀ i ∈ h, i < nE) (hvr : ∀ i ∈ r, i < nR)
    (hvt : ∀ i ∈ t, i < nE) : EmbedProjectsSpec M d n h r t := by
  unfold EmbedProjectsSpec
  refine ⟨rfl, ?_, ?_⟩
  · intro j hj i hi
    have hjh : j < h.length := hh ▸ hj
    have hjr : j < r.length := hr ▸ hj
    simp only [embed]
    rw [zipWith3_getD projection [] [] [] [] _ _ _ j
      (by simpa [lookup_length] using hjh) (by simpa [lookup_length] using hjh)
      (by simpa [lookup_length] using hjr),
      lookup_getD _ _ _ hjh, lookup_getD _ _ _ hjh, lookup_getD _ _ _ hjr]
    have hErow : (M.ent_embeddings.getD (h.getD j 0) []).length = d :=
      row_length _ nE d _ S.entEmbRows S.entEmbCols (hvh _ (getD_mem 0 h j hjh))
    have hProw : (M.rel_mappings.getD (r.getD j 0) []).length = d :=
      row_length _ nR d _ S.relMapRows S.relMapCols (hvr _ (getD_mem 0 r j hjr))
    exact projection_getD _ _ _ i (lt_of_lt_of_eq hi hErow.symm)
      (lt_of_lt_of_eq hi hProw.symm)
  · intro j hj i hi
    have hjt : j < t.length := ht ▸ hj
    have hjr : j < r.length := hr ▸ hj
    simp only [embed]
    rw [zipWith3_getD projection [] [] [] [] _ _ _ j
      (by simpa [lookup_length] using hjt) (by simpa [lookup_length] using hjt)
      (by simpa [lookup_length] using hjr),
      lookup_getD _ _ _ hjt, lookup_getD _ _ _ hjt, lookup_getD _ _ _ hjr]
    have hErow : (M.ent_embeddings.getD (t.getD j 0) []).length = d :=
      row_length _ nE d _ S.entEmbRows S.entEmbCols (hvt _ (getD_mem 0 t j hjt))
    have hProw : (M.rel_mappings.getD (r.getD j 0) []).length = d :=
      row_length _ nR d _ S.relMapRows S.relMapCols (hvr _ (getD_mem 0 r j hjr))
    exact projection_getD _ _ _ i (lt_of_lt_of_eq hi hErow.symm)
      (lt_of_lt_of_eq hi hProw.symm)

/-- Witness for C1: `Mex` with the valid batch `h = [0]`, `r = [0]`,
`t = [1]`. -/
theorem embed_matches_projection_spec_witness :
    EmbedProjectsSpec Mex 2 1 [0] [0] [1] :=
  embed_matches_projection_spec Mex 2 1 2 Mex_shaped [0] [0] [1] 1 rfl rfl rfl
    (by decide) (by decide) (by decide)

/-- Claim C4: for matched positive and negative id batches of size `n`, the
loss returned by `get_loss` equals `mean(max(0, margin + positive_score −
negative_score))`, is zero exactly when `negative_score − positive_score ≥
margin` holds for every example, and is strictly positive as soon as one
example violates the margin. -/
theorem get_loss_margin_spec (M : TransD) (ph pr pt nh nr nt : List ℕ)
    (n : ℕ) (h1 : ph.length = n) (h2 : pr.length = n) (h3 : pt.length = n)
    (h4 : nh.length = n) (h5 : nr.length = n) (h6 : nt.length = n) :
    GetLossSpec M n ph pr pt nh nr nt := by
  have hpos : (score_of M ph pr pt).length = n :=
    score_of_length M ph pr pt n h1 h2 h3
  have hneg : (score_of M nh nr nt).length = n :=
    score_of_length M nh nr nt n h4 h5 h6
  have hmain := pairwise_margin_loss_zero_iff M.config.margin
    (score_of M ph pr pt) (score_of M nh nr nt) n hpos hneg
  exact ⟨rfl, hmain.1, hmain.2⟩

/-- Witness for C4: `Mex` with the single-example batches
`ph = pr = pt = nh = nr = nt = [0]`. -/
theorem get_loss_margin_spec_witness :
    GetLossSpec Mex 1 [0] [0] [0] [0] [0] [0] :=
  get_loss_margin_spec Mex [0] [0] [0] [0] [0] [0] 1 rfl rfl rfl rfl rfl rfl

end TransDModel
